import Mathlib

/-!
A shallow embedding of the mapping-conversion core of `conversion.py` (the
ProGuard-mapping parser of this repository): faithful models of the three
regular expressions `class_re`, `method_re` and `field_re`, of the descriptor
converter `convert_java_type_to_jvm`, of `get_method_signature`, and of the
two-pass engine `parse_mappings`, together with theorems about them.

Modelling conventions:
* Python strings are `String` / `List Char`; Python dicts are
  insertion-ordered association lists (`insertD` overwrites in place keeping
  the original position, exactly like dict assignment; `modifyD` updates the
  value at a present key; `lookupD` is dict lookup).
* The regex classes `\w`, `\s`, `\d` are modelled over ASCII.  The regexes
  involved are deterministic except for the greedy `(.*)` of `method_re`
  (modelled by `paramsSplit`, which prefers the longest parameter text) and
  the optional `(?:\d+:\d+:)?` prefix (modelled with an explicit fallback):
  every other subpattern boundary is between disjoint character classes, so
  maximal munch is the only possible match.
* The value stored for a method name is a sum type `MethodEntry`: either a
  single record or a list of overloads, mirroring the dict-or-list shape of
  the Python output.
-/

namespace Conversion

/-- ASCII model of the regex class `\w`. -/
def isWordChar (c : Char) : Bool := c.isAlphanum || c = '_'

/-- ASCII model of the regex class `\s`. -/
def isSpaceChar (c : Char) : Bool :=
  c = ' ' || c = '\t' || c = '\n' || c = '\r' || c = '\x0b' || c = '\x0c'

/-- The class `[\w\.$]`: characters of an original class name in `class_re`. -/
def isClassNameChar (c : Char) : Bool := isWordChar c || c = '.' || c = '$'

/-- The class `[\w$]`: obfuscated class names, field names. -/
def isObfNameChar (c : Char) : Bool := isWordChar c || c = '$'

/-- The class `[\w\.<>$]`: type names in `method_re` and `field_re`. -/
def isTypeNameChar (c : Char) : Bool :=
  isWordChar c || c = '.' || c = '<' || c = '>' || c = '$'

/-- The class `[\w<>$]`: method names and obfuscated method names. -/
def isMethodNameChar (c : Char) : Bool :=
  isWordChar c || c = '<' || c = '>' || c = '$'

/-- Greedy span of a character class, as a regex `C+`/`C*` scans. -/
def spanP (p : Char → Bool) : List Char → List Char × List Char
  | [] => ([], [])
  | c :: rest =>
    if p c then
      let r := spanP p rest
      (c :: r.1, r.2)
    else ([], c :: rest)

/-- Model of `class_re.match`: `^([\w\.$]+) -> ([\w$]+):$`.
Returns the original (dotted) name and the obfuscated name. -/
def classMatch (cs : List Char) : Option (String × String) :=
  let s1 := spanP isClassNameChar cs
  if s1.1.isEmpty then none
  else
    match s1.2 with
    | ' ' :: '-' :: '>' :: ' ' :: r2 =>
      let s2 := spanP isObfNameChar r2
      if s2.1.isEmpty then none
      else if s2.2 = [':'] then some (⟨s1.1⟩, ⟨s2.1⟩) else none
    | _ => none

/-- Model of `field_re.match`: `^\s+([\w\.<>$]+)\s+([\w$]+)\s+->\s+([\w$]+)$`.
Returns (field type, field name, obfuscated name). -/
def fieldMatch (cs : List Char) : Option (String × String × String) :=
  let w1 := spanP isSpaceChar cs
  if w1.1.isEmpty then none
  else
    let t1 := spanP isTypeNameChar w1.2
    if t1.1.isEmpty then none
    else
      let w2 := spanP isSpaceChar t1.2
      if w2.1.isEmpty then none
      else
        let t2 := spanP isObfNameChar w2.2
        if t2.1.isEmpty then none
        else
          let w3 := spanP isSpaceChar t2.2
          if w3.1.isEmpty then none
          else
            match w3.2 with
            | '-' :: '>' :: r =>
              let w4 := spanP isSpaceChar r
              if w4.1.isEmpty then none
              else
                let t3 := spanP isObfNameChar w4.2
                if t3.1.isEmpty then none
                else if t3.2.isEmpty then some (⟨t1.1⟩, ⟨t2.1⟩, ⟨t3.1⟩) else none
            | _ => none

/-- The tail of `method_re` after the closing parenthesis:
`\s+->\s+([\w<>$]+)$`.  Returns the obfuscated method name. -/
def methodTailMatch (cs : List Char) : Option String :=
  let w1 := spanP isSpaceChar cs
  if w1.1.isEmpty then none
  else
    match w1.2 with
    | '-' :: '>' :: r =>
      let w2 := spanP isSpaceChar r
      if w2.1.isEmpty then none
      else
        let g := spanP isMethodNameChar w2.2
        if g.1.isEmpty then none
        else if g.2.isEmpty then some ⟨g.1⟩ else none
    | _ => none

/-- The optional `(?:\d+:\d+:)?` line-range marker of `method_re`; returns the
rest of the line when the marker is present. -/
def lineRangeSkip (cs : List Char) : Option (List Char) :=
  let d1 := spanP Char.isDigit cs
  if d1.1.isEmpty then none
  else
    match d1.2 with
    | ':' :: r1 =>
      let d2 := spanP Char.isDigit r1
      if d2.1.isEmpty then none
      else
        match d2.2 with
        | ':' :: r2 => some r2
        | _ => none
    | _ => none

/-- Greedy split of the text after the opening parenthesis of `method_re`:
`(.*)\)` followed by `methodTailMatch`.  Python's greedy `.*` takes the
longest parameter text whose suffix still matches, i.e. the last `)` whose
tail matches; the recursion below prefers consuming the head into the
parameter text. -/
def paramsSplit : List Char → Option (List Char × String)
  | [] => none
  | c :: rest =>
    match paramsSplit rest with
    | some r => some (c :: r.1, r.2)
    | none =>
      if c = ')' then
        match methodTailMatch rest with
        | some obf => some ([], obf)
        | none => none
      else none

/-- The body of `method_re` after the leading whitespace and the optional
line-range marker: `([\w\.<>$]+)\s+([\w<>$]+)\((.*)\)\s+->\s+([\w<>$]+)$`.
Returns (return type, method name, parameter text, obfuscated name). -/
def methodBodyMatch (cs : List Char) : Option (String × String × String × String) :=
  let t1 := spanP isTypeNameChar cs
  if t1.1.isEmpty then none
  else
    let w1 := spanP isSpaceChar t1.2
    if w1.1.isEmpty then none
    else
      let t2 := spanP isMethodNameChar w1.2
      if t2.1.isEmpty then none
      else
        match t2.2 with
        | '(' :: r =>
          match paramsSplit r with
          | some pr => some (⟨t1.1⟩, ⟨t2.1⟩, ⟨pr.1⟩, pr.2)
          | none => none
        | _ => none

/-- Model of `method_re.match`:
`^\s+(?:\d+:\d+:)?([\w\.<>$]+)\s+([\w<>$]+)\((.*)\)\s+->\s+([\w<>$]+)$`.
If the optional line-range marker matches but the rest of the pattern then
fails, the regex engine retries with the marker matching nothing. -/
def methodMatch (cs : List Char) : Option (String × String × String × String) :=
  let w0 := spanP isSpaceChar cs
  if w0.1.isEmpty then none
  else
    match lineRangeSkip w0.2 with
    | some r1 =>
      match methodBodyMatch r1 with
      | some res => some res
      | none => methodBodyMatch w0.2
    | none => methodBodyMatch w0.2

/-- Number of (non-overlapping, left-to-right) occurrences of the substring
`[]`, as `java_type.count("[]")` computes. -/
def countBr : List Char → Nat
  | [] => 0
  | [_] => 0
  | c1 :: c2 :: rest =>
    if c1 = '[' && c2 = ']' then countBr rest + 1 else countBr (c2 :: rest)

/-- Removal of all (non-overlapping, left-to-right) occurrences of the
substring `[]`, as `java_type.replace("[]", "")` computes. -/
def removeBr : List Char → List Char
  | [] => []
  | [c] => [c]
  | c1 :: c2 :: rest =>
    if c1 = '[' && c2 = ']' then removeBr rest else c1 :: removeBr (c2 :: rest)

/-- The characters of `n` trailing `[]` array markers. -/
def brMarkers : Nat → List Char
  | 0 => []
  | n + 1 => '[' :: ']' :: brMarkers n

/-- The string of `n` trailing `[]` array markers. -/
def arrayMarkers (n : Nat) : String := ⟨brMarkers n⟩

/-- Dict lookup on an association list (Python `m[k]` / `k in m`). -/
def lookupD {β : Type} (k : String) : List (String × β) → Option β
  | [] => none
  | (k', v) :: rest => if k' = k then some v else lookupD k rest

/-- Dict assignment `m[k] = v`: overwrite in place if the key is present
(keeping its position, as Python dicts do), else append. -/
def insertD {β : Type} (k : String) (v : β) : List (String × β) → List (String × β)
  | [] => [(k, v)]
  | (k', v') :: rest =>
    if k' = k then (k, v) :: rest else (k', v') :: insertD k v rest

/-- Update of the value stored at a present key (no effect on absent keys;
the Python code only ever updates keys it created in pass 1). -/
def modifyD {β : Type} (k : String) (f : β → β) : List (String × β) → List (String × β)
  | [] => []
  | (k', v) :: rest =>
    if k' = k then (k', f v) :: rest else (k', v) :: modifyD k f rest

/-- `name.replace('.', '/')`. -/
def dotsToSlashes (s : String) : String :=
  ⟨s.data.map fun c => if c = '.' then '/' else c⟩

/-- The `primitive_map` literal of `convert_java_type_to_jvm`. -/
def primitive_map : List (String × String) :=
  [("void", "V"), ("boolean", "Z"), ("byte", "B"), ("char", "C"),
   ("short", "S"), ("int", "I"), ("float", "F"), ("long", "J"), ("double", "D")]

/-- The `jvm_type` computed by `convert_java_type_to_jvm` for the name with
array markers already removed: primitive lookup, else dot-to-slash
conversion, resolution-table lookup with passthrough, wrapped as `L<name>;`. -/
def convBase (base : String) (class_map : List (String × String)) : String :=
  match lookupD base primitive_map with
  | some p => p
  | none =>
    let internal_name := dotsToSlashes base
    "L" ++ ((lookupD internal_name class_map).getD internal_name) ++ ";"

/-- Model of `convert_java_type_to_jvm(java_type, class_map)`: count and
remove the `[]` markers, convert the base name, prepend `[` per marker. -/
def convert_java_type_to_jvm (java_type : String)
    (class_map : List (String × String)) : String :=
  String.mk (List.replicate (countBr java_type.data) '[')
    ++ convBase ⟨removeBr java_type.data⟩ class_map

/-- Python `str.strip()` (whitespace from both ends, ASCII model). -/
def stripWs (cs : List Char) : List Char :=
  ((cs.dropWhile isSpaceChar).reverse.dropWhile isSpaceChar).reverse

/-- Python `str.split(',')` for a nonempty separator, over characters. -/
def splitCommas : List Char → List (List Char)
  | [] => [[]]
  | c :: rest =>
    let ls := splitCommas rest
    if c = ',' then [] :: ls
    else
      match ls with
      | l :: ls' => (c :: l) :: ls'
      | [] => [[c]]

/-- Model of `get_method_signature(return_type, params_str, class_map)`:
if the parameter text is nonempty, split it on commas and convert the first
space-separated token of each stripped entry; wrap in parentheses and append
the converted return type. -/
def get_method_signature (return_type params_str : String)
    (class_map : List (String × String)) : String :=
  let params : List String :=
    if params_str.data.isEmpty then []
    else
      (splitCommas params_str.data).map fun p =>
        convert_java_type_to_jvm ⟨(stripWs p).takeWhile fun c => c != ' '⟩ class_map
  "(" ++ String.join params ++ ")" ++ convert_java_type_to_jvm return_type class_map

/-- A method entry `{"name": ..., "signature": ...}`. -/
structure MethodRecord where
  name : String
  signature : String
deriving DecidableEq

/-- A field entry `{"name": ...}`. -/
structure FieldRecord where
  name : String
deriving DecidableEq

/-- The value stored under an original method name: a single record, or an
ordered list of overloads.  The Python output stores a dict or a list; the
sum type mirrors that shape distinction exactly. -/
inductive MethodEntry where
  | single : MethodRecord → MethodEntry
  | overloaded : List MethodRecord → MethodEntry
deriving DecidableEq

/-- One entry of `data["classes"]`. -/
structure ClassRecord where
  name : String
  methods : List (String × MethodEntry)
  fields : List (String × FieldRecord)
deriving DecidableEq

/-- The final output `data` of `parse_mappings`. -/
structure MappingTable where
  classes : List (String × ClassRecord)
deriving DecidableEq

/-- Python `input_text.split('\n')`, over characters. -/
def splitLines : List Char → List (List Char)
  | [] => [[]]
  | c :: rest =>
    let ls := splitLines rest
    if c = '\n' then [] :: ls
    else
      match ls with
      | l :: ls' => (c :: l) :: ls'
      | [] => [[c]]

/-- Python `str.rstrip()` (trailing whitespace, ASCII model). -/
def rstripL (cs : List Char) : List Char :=
  (cs.reverse.dropWhile isSpaceChar).reverse

/-- The line filter of `parse_mappings`: keep a line iff `line.strip()` is
nonempty and the line does not start with `#`. -/
def keepLine (cs : List Char) : Bool :=
  !(cs.dropWhile isSpaceChar).isEmpty && !(cs.head? = some '#')

/-- The preprocessed line list of `parse_mappings`:
`[line.rstrip() for line in input_text.split('\n') if line.strip() and not line.startswith('#')]`. -/
def prepLines (input : String) : List (List Char) :=
  (splitLines input.data).filterMap fun cs =>
    if keepLine cs then some (rstripL cs) else none

/-- One line of the first pass: on a class-declaration line, register the
resolution-table entry and the (fresh) class record; ignore anything else. -/
def pass1Step (st : List (String × String) × List (String × ClassRecord))
    (cs : List Char) : List (String × String) × List (String × ClassRecord) :=
  match classMatch cs with
  | some (orig, obf) =>
    let key := dotsToSlashes orig
    (insertD key obf st.1, insertD key ⟨obf, [], []⟩ st.2)
  | none => st

/-- The first pass over the whole line list. -/
def pass1 (lines : List (List Char)) :
    List (String × String) × List (String × ClassRecord) :=
  lines.foldl pass1Step ([], [])

/-- The mutable state of the second pass: the classes table under
construction, the current-class cursor, and the staged method overloads. -/
structure Pass2State where
  classes : List (String × ClassRecord)
  current : Option String
  overloads : List (String × List MethodRecord)
deriving DecidableEq

/-- Overload collation for one original method name: a list when more than
one record was staged, the single record otherwise (the staged list is never
empty; the default is unreachable). -/
def collate (ms : List MethodRecord) : MethodEntry :=
  if ms.length > 1 then .overloaded ms else .single (ms.headD ⟨"", ""⟩)

/-- Write the collated pending overloads of the class at `key` into the
classes table, in staging (first-seen) order. -/
def flushInto (classes : List (String × ClassRecord)) (key : String)
    (ov : List (String × List MethodRecord)) : List (String × ClassRecord) :=
  ov.foldl
    (fun cls p =>
      modifyD key (fun r => { r with methods := insertD p.1 (collate p.2) r.methods }) cls)
    classes

/-- The guarded flush `if current_class_jvm and method_overloads:` of the
second pass (an empty string is falsy in Python, hence the extra test). -/
def flushPending (st : Pass2State) : Pass2State :=
  match st.current with
  | some key =>
    if key ≠ "" ∧ st.overloads ≠ [] then
      { st with classes := flushInto st.classes key st.overloads, overloads := [] }
    else st
  | none => st

/-- Staging of one method record under its original name, preserving
first-seen key order and appending to the per-name list. -/
def pushOverload (k : String) (m : MethodRecord) :
    List (String × List MethodRecord) → List (String × List MethodRecord)
  | [] => [(k, [m])]
  | (k', ms) :: rest =>
    if k' = k then (k', ms ++ [m]) :: rest else (k', ms) :: pushOverload k m rest

/-- One line of the second pass: on a class line, flush the previous class's
pending overloads and move the cursor; otherwise, with a (truthy) current
class, try the method grammar then the field grammar; ignore the rest. -/
def pass2Step (cmap : List (String × String)) (st : Pass2State)
    (cs : List Char) : Pass2State :=
  match classMatch cs with
  | some (orig, _) => { flushPending st with current := some (dotsToSlashes orig) }
  | none =>
    match st.current with
    | none => st
    | some key =>
      if key = "" then st
      else
        match methodMatch cs with
        | some (ret, mname, params, obf) =>
          { st with overloads :=
              pushOverload mname ⟨obf, get_method_signature ret params cmap⟩ st.overloads }
        | none =>
          match fieldMatch cs with
          | some (_, fname, obf) =>
            { st with classes :=
                modifyD key (fun r => { r with fields := insertD fname ⟨obf⟩ r.fields }) st.classes }
          | none => st

/-- Both passes over a preprocessed line list, with the final flush. -/
def parseFromLines (lines : List (List Char)) : MappingTable :=
  let p := pass1 lines
  ⟨(flushPending (lines.foldl (pass2Step p.1) ⟨p.2, none, []⟩)).classes⟩

/-- Model of `parse_mappings(input_text)`. -/
def parse_mappings (input : String) : MappingTable :=
  parseFromLines (prepLines input)

/-- The resolution table (`class_map`) built by the first pass. -/
def class_map_of (input : String) : List (String × String) :=
  (pass1 (prepLines input)).1

/-- Left-biased choice on `Option` (used to state fold lemmas). -/
def orO {α : Type} : Option α → Option α → Option α
  | some v, _ => some v
  | none, b => b

/-- The last element of a list, as an `Option`. -/
def lastOpt {α : Type} : List α → Option α
  | [] => none
  | a :: rest => some ((lastOpt rest).getD a)

/-- The obfuscated names declared for resolution-table key `k` by the
class-declaration lines of `lines`, in input order. -/
def classDecls (lines : List (List Char)) (k : String) : List String :=
  lines.filterMap fun cs =>
    match classMatch cs with
    | some r => if dotsToSlashes r.1 = k then some r.2 else none
    | none => none

/-! ### Association-list lemmas -/

theorem lookupD_insertD {β : Type} (k k' : String) (v : β) (m : List (String × β)) :
    lookupD k (insertD k' v m) = if k' = k then some v else lookupD k m := by
  induction m with
  | nil => by_cases h : k' = k <;> simp [insertD, lookupD, h]
  | cons p rest ih =>
    obtain ⟨k0, v0⟩ := p
    by_cases h0 : k0 = k'
    · subst h0
      by_cases h1 : k0 = k <;> simp [insertD, lookupD, h1]
    · by_cases h1 : k0 = k
      · subst h1
        have h2 : ¬ k' = k0 := fun h => h0 h.symm
        simp [insertD, lookupD, h0, h2]
      · simp [insertD, lookupD, h0, h1, ih]

theorem lookupD_modifyD {β : Type} (k k' : String) (f : β → β) (m : List (String × β)) :
    lookupD k (modifyD k' f m) = if k' = k then (lookupD k m).map f else lookupD k m := by
  induction m with
  | nil => by_cases h : k' = k <;> simp [modifyD, lookupD, h]
  | cons p rest ih =>
    obtain ⟨k0, v0⟩ := p
    by_cases h0 : k0 = k'
    · subst h0
      by_cases h1 : k0 = k <;> simp [modifyD, lookupD, h1]
    · by_cases h1 : k0 = k
      · subst h1
        have h2 : ¬ k' = k0 := fun h => h0 h.symm
        simp [modifyD, lookupD, h0, h2]
      · simp [modifyD, lookupD, h0, h1, ih]

theorem lookupD_mem_snd {β : Type} {k : String} {v : β} {m : List (String × β)}
    (h : lookupD k m = some v) : v ∈ m.map Prod.snd := by
  induction m with
  | nil => simp [lookupD] at h
  | cons p rest ih =>
    obtain ⟨k0, v0⟩ := p
    by_cases h0 : k0 = k
    · simp [lookupD, h0] at h
      simp [h]
    · simp [lookupD, h0] at h
      simp [ih h]

theorem orO_none_right {α : Type} (a : Option α) : orO a none = a := by
  cases a <;> rfl

theorem orO_lastOpt_cons {α : Type} (b : α) (l : List α) :
    orO (lastOpt l) (some b) = lastOpt (b :: l) := by
  cases h : lastOpt l <;> simp [orO, lastOpt, h]

theorem lastOpt_of_ne_nil {α : Type} {l : List α} (h : l ≠ []) :
    ∃ v, lastOpt l = some v := by
  cases l with
  | nil => exact absurd rfl h
  | cons a rest => exact ⟨(lastOpt rest).getD a, rfl⟩

/-! ### Pass-1 fold lemmas: the resolution table and the initial class
records hold, for each key, the data of its last class-declaration line. -/

theorem pass1_foldl_fst (lines : List (List Char)) (k : String)
    (acc : List (String × String) × List (String × ClassRecord)) :
    lookupD k (lines.foldl pass1Step acc).1
      = orO (lastOpt (classDecls lines k)) (lookupD k acc.1) := by
  induction lines generalizing acc with
  | nil => simp [classDecls, lastOpt, orO]
  | cons cs rest ih =>
    rw [List.foldl_cons, ih]
    cases h : classMatch cs with
    | none => simp [classDecls, List.filterMap_cons, h, pass1Step]
    | some r =>
      obtain ⟨orig, obf⟩ := r
      by_cases hk : dotsToSlashes orig = k
      · have hstep : (pass1Step acc cs).1 = insertD k obf acc.1 := by
          simp [pass1Step, h, hk]
        have hdec : classDecls (cs :: rest) k = obf :: classDecls rest k := by
          simp [classDecls, List.filterMap_cons, h, hk]
        rw [hstep, hdec, lookupD_insertD, if_pos rfl, orO_lastOpt_cons]
        simp [lastOpt, orO]
      · have hstep : (pass1Step acc cs).1 = insertD (dotsToSlashes orig) obf acc.1 := by
          simp [pass1Step, h]
        have hdec : classDecls (cs :: rest) k = classDecls rest k := by
          simp [classDecls, List.filterMap_cons, h, hk]
        rw [hstep, hdec, lookupD_insertD, if_neg hk]

theorem pass1_foldl_snd_name (lines : List (List Char)) (k : String)
    (acc : List (String × String) × List (String × ClassRecord)) :
    (lookupD k (lines.foldl pass1Step acc).2).map ClassRecord.name
      = orO (lastOpt (classDecls lines k)) ((lookupD k acc.2).map ClassRecord.name) := by
  induction lines generalizing acc with
  | nil => simp [classDecls, lastOpt, orO]
  | cons cs rest ih =>
    rw [List.foldl_cons, ih]
    cases h : classMatch cs with
    | none => simp [classDecls, List.filterMap_cons, h, pass1Step]
    | some r =>
      obtain ⟨orig, obf⟩ := r
      by_cases hk : dotsToSlashes orig = k
      · have hstep : (pass1Step acc cs).2
            = insertD k (⟨obf, [], []⟩ : ClassRecord) acc.2 := by
          simp [pass1Step, h, hk]
        have hdec : classDecls (cs :: rest) k = obf :: classDecls rest k := by
          simp [classDecls, List.filterMap_cons, h, hk]
        rw [hstep, hdec, lookupD_insertD, if_pos rfl]
        have hmap : (some (⟨obf, [], []⟩ : ClassRecord)).map ClassRecord.name
            = some obf := rfl
        rw [hmap, orO_lastOpt_cons]
        simp [lastOpt, orO]
      · have hstep : (pass1Step acc cs).2
            = insertD (dotsToSlashes orig) (⟨obf, [], []⟩ : ClassRecord) acc.2 := by
          simp [pass1Step, h]
        have hdec : classDecls (cs :: rest) k = classDecls rest k := by
          simp [classDecls, List.filterMap_cons, h, hk]
        rw [hstep, hdec, lookupD_insertD, if_neg hk]

/-! ### Pass 2 never changes the `name` attribute of a class record. -/

theorem name_flushInto (ov : List (String × List MethodRecord))
    (classes : List (String × ClassRecord)) (key k : String) :
    (lookupD k (flushInto classes key ov)).map ClassRecord.name
      = (lookupD k classes).map ClassRecord.name := by
  induction ov generalizing classes with
  | nil => rfl
  | cons p rest ih =>
    rw [flushInto, List.foldl_cons, ← flushInto, ih, lookupD_modifyD]
    by_cases hk : key = k
    · rw [if_pos hk]
      cases lookupD k classes <;> rfl
    · rw [if_neg hk]

theorem name_flushPending (st : Pass2State) (k : String) :
    (lookupD k (flushPending st).classes).map ClassRecord.name
      = (lookupD k st.classes).map ClassRecord.name := by
  unfold flushPending
  cases st.current with
  | none => rfl
  | some key =>
    by_cases h : key ≠ "" ∧ st.overloads ≠ []
    · simp only [if_pos h]
      exact name_flushInto st.overloads st.classes key k
    · simp only [if_neg h]

theorem name_pass2Step (cmap : List (String × String)) (st : Pass2State)
    (cs : List Char) (k : String) :
    (lookupD k (pass2Step cmap st cs).classes).map ClassRecord.name
      = (lookupD k st.classes).map ClassRecord.name := by
  unfold pass2Step
  cases h : classMatch cs with
  | some r => exact name_flushPending st k
  | none =>
    cases hc : st.current with
    | none => rfl
    | some key =>
      by_cases hk : key = ""
      · simp only [if_pos hk]
      · simp only [if_neg hk]
        cases hm : methodMatch cs with
        | some r => rfl
        | none =>
          cases hf : fieldMatch cs with
          | none => rfl
          | some r =>
            simp only
            rw [lookupD_modifyD]
            by_cases hkk : key = k
            · rw [if_pos hkk]
              cases lookupD k st.classes <;> rfl
            · rw [if_neg hkk]

theorem name_pass2_foldl (cmap : List (String × String)) (lines : List (List Char))
    (st : Pass2State) (k : String) :
    (lookupD k (lines.foldl (pass2Step cmap) st).classes).map ClassRecord.name
      = (lookupD k st.classes).map ClassRecord.name := by
  induction lines generalizing st with
  | nil => rfl
  | cons cs rest ih =>
    rw [List.foldl_cons, ih, name_pass2Step]

/-! ### Grammar disjointness and skipped lines -/

theorem isClassNameChar_eq_false_of_space {c : Char} (h : isSpaceChar c = true) :
    isClassNameChar c = false := by
  simp only [isSpaceChar, Bool.or_eq_true, decide_eq_true_eq] at h
  rcases h with ((((h | h) | h) | h) | h) | h <;> subst h <;> decide

theorem classMatch_eq_none_of_methodMatch {cs : List Char}
    {r : String × String × String × String}
    (h : methodMatch cs = some r) : classMatch cs = none := by
  cases cs with
  | nil => simp [methodMatch, spanP] at h
  | cons c rest =>
    cases hc : isSpaceChar c with
    | false => simp [methodMatch, spanP, hc] at h
    | true =>
      have hcc := isClassNameChar_eq_false_of_space hc
      simp [classMatch, spanP, hcc]

theorem pass1Step_skip {cs : List Char} (h : classMatch cs = none)
    (st : List (String × String) × List (String × ClassRecord)) :
    pass1Step st cs = st := by
  simp [pass1Step, h]

theorem pass2Step_skip {cs : List Char} (h1 : classMatch cs = none)
    (h2 : methodMatch cs = none) (h3 : fieldMatch cs = none)
    (cmap : List (String × String)) (st : Pass2State) :
    pass2Step cmap st cs = st := by
  cases hc : st.current with
  | none => simp [pass2Step, h1, hc]
  | some key =>
    by_cases hk : key = "" <;> simp [pass2Step, h1, h2, h3, hc, hk]

theorem pass2Step_noclass {cs : List Char} (h1 : classMatch cs = none)
    (cmap : List (String × String)) {st : Pass2State}
    (hc : st.current = none) : pass2Step cmap st cs = st := by
  simp [pass2Step, h1, hc]

/-! ### Staging and flushing of method overloads -/

theorem lookupD_pushOverload_self (k : String) (m : MethodRecord)
    (ov : List (String × List MethodRecord)) :
    lookupD k (pushOverload k m ov) = some (((lookupD k ov).getD []) ++ [m]) := by
  induction ov with
  | nil => simp [pushOverload, lookupD]
  | cons p rest ih =>
    obtain ⟨k0, ms0⟩ := p
    by_cases h0 : k0 = k
    · subst h0
      simp [pushOverload, lookupD]
    · simp [pushOverload, lookupD, h0, ih]

theorem flushInto_bind_of_not_mem (ov : List (String × List MethodRecord))
    (classes : List (String × ClassRecord)) (key mname : String)
    (h : mname ∉ ov.map Prod.fst) :
    ((lookupD key (flushInto classes key ov)).bind fun r => lookupD mname r.methods)
      = ((lookupD key classes).bind fun r => lookupD mname r.methods) := by
  induction ov generalizing classes with
  | nil => rfl
  | cons p rest ih =>
    obtain ⟨k0, ms0⟩ := p
    have hk0 : ¬ k0 = mname := by
      intro he
      exact h (by simp [he])
    have hrest : mname ∉ rest.map Prod.fst := by
      intro he
      exact h (by simp [he])
    rw [flushInto, List.foldl_cons, ← flushInto, ih _ hrest, lookupD_modifyD, if_pos rfl]
    cases lookupD key classes with
    | none => rfl
    | some r =>
      show lookupD mname (insertD k0 (collate ms0) r.methods) = lookupD mname r.methods
      rw [lookupD_insertD, if_neg hk0]

theorem flushInto_bind_lookup (ov : List (String × List MethodRecord))
    (classes : List (String × ClassRecord)) (key mname : String)
    (ms : List MethodRecord)
    (hnd : (ov.map Prod.fst).Nodup) (hms : lookupD mname ov = some ms)
    (hcl : (lookupD key classes).isSome = true) :
    ((lookupD key (flushInto classes key ov)).bind fun r => lookupD mname r.methods)
      = some (collate ms) := by
  induction ov generalizing classes with
  | nil => simp [lookupD] at hms
  | cons p rest ih =>
    obtain ⟨k0, ms0⟩ := p
    rw [flushInto, List.foldl_cons, ← flushInto]
    by_cases h0 : k0 = mname
    · simp only [lookupD, if_pos h0] at hms
      have hnotin : mname ∉ rest.map Prod.fst := by
        simp only [List.map_cons, List.nodup_cons] at hnd
        exact h0 ▸ hnd.1
      rw [flushInto_bind_of_not_mem rest _ key mname hnotin, lookupD_modifyD, if_pos rfl]
      obtain ⟨r, hr⟩ := Option.isSome_iff_exists.mp hcl
      rw [hr]
      show lookupD mname (insertD k0 (collate ms0) r.methods) = some (collate ms)
      rw [lookupD_insertD, if_pos h0]
      rw [Option.some_inj] at hms
      rw [hms]
    · simp only [lookupD, if_neg h0] at hms
      have hnd' : (rest.map Prod.fst).Nodup := by
        simp only [List.map_cons, List.nodup_cons] at hnd
        exact hnd.2
      have hcl' : (lookupD key (modifyD key
          (fun r => { r with methods := insertD k0 (collate ms0) r.methods }) classes)).isSome
            = true := by
        rw [lookupD_modifyD, if_pos rfl]
        obtain ⟨r, hr⟩ := Option.isSome_iff_exists.mp hcl
        rw [hr]
        rfl
      exact ih _ hnd' hms hcl'

/-! ### Counting and removal of `[]` array markers -/

theorem countBr_brMarkers (n : Nat) : countBr (brMarkers n) = n := by
  induction n with
  | zero => rfl
  | succ m ih => simp [brMarkers, countBr, ih]

theorem removeBr_brMarkers (n : Nat) : removeBr (brMarkers n) = [] := by
  induction n with
  | zero => rfl
  | succ m ih => simp [brMarkers, removeBr, ih]

theorem countBr_append_brMarkers (cs : List Char) (n : Nat) :
    countBr (cs ++ brMarkers n) = countBr cs + n := by
  induction cs using countBr.induct with
  | case1 => simp [countBr, countBr_brMarkers]
  | case2 c =>
    cases n with
    | zero => simp [brMarkers, countBr]
    | succ m => simp [brMarkers, countBr, countBr_brMarkers]
  | case3 c1 c2 rest h ih =>
    simp only [List.cons_append, List.append_eq, countBr, if_pos h, ih]
    omega
  | case4 c1 c2 rest h ih =>
    simp only [List.cons_append, List.append_eq, countBr, if_neg h]
    simpa [List.append_eq] using ih

theorem removeBr_append_brMarkers (cs : List Char) (n : Nat) :
    removeBr (cs ++ brMarkers n) = removeBr cs := by
  induction cs using removeBr.induct with
  | case1 => simp [removeBr, removeBr_brMarkers]
  | case2 c =>
    cases n with
    | zero => simp [brMarkers, removeBr]
    | succ m => simp [brMarkers, removeBr, removeBr_brMarkers]
  | case3 c1 c2 rest h ih =>
    simp only [List.cons_append, List.append_eq, removeBr, if_pos h, ih]
  | case4 c1 c2 rest h ih =>
    simp only [List.cons_append, List.append_eq, removeBr, if_neg h]
    simpa [List.append_eq] using ih

theorem removeBr_of_countBr_zero : ∀ {cs : List Char}, countBr cs = 0 → removeBr cs = cs := by
  intro cs
  induction cs using removeBr.induct with
  | case1 => intro _; rfl
  | case2 c => intro _; rfl
  | case3 c1 c2 rest h ih =>
    intro hz
    rw [countBr, if_pos h] at hz
    exact absurd hz (by omega)
  | case4 c1 c2 rest h ih =>
    intro hz
    rw [countBr, if_neg h] at hz
    rw [removeBr, if_neg h, ih hz]

/-! ### String plumbing and the shape of converted base types -/

theorem data_append (a b : String) : (a ++ b).data = a.data ++ b.data := rfl

theorem mk_data (s : String) : String.mk s.data = s := rfl

theorem mk_data_eq (l : List Char) : (String.mk l).data = l := rfl

theorem convBase_data_head (base : String) (cmap : List (String × String)) :
    (convBase base cmap).data.head? ≠ some '[' := by
  unfold convBase
  split
  · rename_i p h
    have hp := lookupD_mem_snd h
    simp only [primitive_map, List.map_cons, List.map_nil, List.mem_cons,
      List.not_mem_nil, or_false] at hp
    rcases hp with h1 | h1 | h1 | h1 | h1 | h1 | h1 | h1 | h1 <;> subst h1 <;> decide
  · intro hcon
    rw [data_append, data_append] at hcon
    simp [List.head?] at hcon

theorem conv_eq_convBase_of_no_markers {base : String} (hbr : countBr base.data = 0)
    (cmap : List (String × String)) :
    convert_java_type_to_jvm base cmap = convBase base cmap := by
  unfold convert_java_type_to_jvm
  rw [hbr, removeBr_of_countBr_zero hbr, mk_data]
  rfl

/-! ### Claim theorems -/

/-- Claim C3: for each of the nine Java primitive type names (with no array
markers), `convert_java_type_to_jvm` returns exactly the corresponding
single-letter JVM code — `V,Z,B,C,S,I,F,J,D` — for any resolution table.
The equalities to the one-letter strings show in particular that no leading
`[` is produced. -/
theorem c3_primitive_codes (cmap : List (String × String)) :
    convert_java_type_to_jvm "void" cmap = "V" ∧
    convert_java_type_to_jvm "boolean" cmap = "Z" ∧
    convert_java_type_to_jvm "byte" cmap = "B" ∧
    convert_java_type_to_jvm "char" cmap = "C" ∧
    convert_java_type_to_jvm "short" cmap = "S" ∧
    convert_java_type_to_jvm "int" cmap = "I" ∧
    convert_java_type_to_jvm "float" cmap = "F" ∧
    convert_java_type_to_jvm "long" cmap = "J" ∧
    convert_java_type_to_jvm "double" cmap = "D" :=
  ⟨rfl, rfl, rfl, rfl, rfl, rfl, rfl, rfl, rfl⟩

/-- Claim C4: for a non-primitive type name with no array markers, the
converter forms the internal name by replacing `.` with `/` and produces
`L<obfuscated>;` when the internal name is a key of the resolution table,
and `L<internal>;` (passthrough) when it is not — both cases captured by
`Option.getD` over the table lookup. -/
theorem c4_object_resolution (s : String) (cmap : List (String × String))
    (hbr : countBr s.data = 0) (hprim : lookupD s primitive_map = none) :
    convert_java_type_to_jvm s cmap
      = "L" ++ ((lookupD (dotsToSlashes s) cmap).getD (dotsToSlashes s)) ++ ";" := by
  rw [conv_eq_convBase_of_no_markers hbr]
  unfold convBase
  rw [hprim]

/-- Witness for C4: `a.b` resolves through the table entry `a/b ↦ x`. -/
theorem c4_object_resolution_witness :
    countBr ("a.b" : String).data = 0 ∧ lookupD "a.b" primitive_map = none ∧
    convert_java_type_to_jvm "a.b" [("a/b", "x")]
      = "L" ++ ((lookupD (dotsToSlashes "a.b") [("a/b", "x")]).getD (dotsToSlashes "a.b")) ++ ";" :=
  ⟨by decide, by decide, c4_object_resolution "a.b" [("a/b", "x")] (by decide) (by decide)⟩

/-- Claim C5: a type name carrying `n` trailing `[]` markers converts to a
descriptor whose characters are exactly `n` copies of `[` followed by the
descriptor of the stripped base type; since the base descriptor never starts
with `[` (second conjunct), the leading-`[` count is exactly `n`. -/
theorem c5_array_depth (base : String) (n : Nat) (cmap : List (String × String))
    (hbr : countBr base.data = 0) :
    (convert_java_type_to_jvm (base ++ arrayMarkers n) cmap).data
        = List.replicate n '[' ++ (convert_java_type_to_jvm base cmap).data
      ∧ (convert_java_type_to_jvm base cmap).data.head? ≠ some '[' := by
  constructor
  · unfold convert_java_type_to_jvm
    rw [show (base ++ arrayMarkers n).data = base.data ++ brMarkers n from rfl]
    rw [countBr_append_brMarkers, removeBr_append_brMarkers, hbr]
    rw [data_append, data_append, mk_data_eq, mk_data_eq]
    simp
  · rw [conv_eq_convBase_of_no_markers hbr]
    exact convBase_data_head base cmap

/-- Witness for C5: `int` with two `[]` markers yields `[[I`. -/
theorem c5_array_depth_witness :
    countBr ("int" : String).data = 0 ∧
    ((convert_java_type_to_jvm ("int" ++ arrayMarkers 2) []).data
        = List.replicate 2 '[' ++ (convert_java_type_to_jvm "int" []).data
      ∧ (convert_java_type_to_jvm "int" []).data.head? ≠ some '[') :=
  ⟨by decide, c5_array_depth "int" 2 [] (by decide)⟩

/-- Claim C10: a method line whose parenthesized parameter list is empty gets
the descriptor `(` ++ `)` ++ return-type descriptor: the empty parameter
text contributes no parameter descriptors at all. -/
theorem c10_empty_params (cs : List Char) (ret mname obf : String)
    (cmap : List (String × String))
    (h : methodMatch cs = some (ret, mname, "", obf)) :
    get_method_signature ret "" cmap = "(" ++ ")" ++ convert_java_type_to_jvm ret cmap := by
  rfl

/-- Witness for C10: the line `    int foo() -> a`. -/
theorem c10_empty_params_witness :
    methodMatch ("    int foo() -> a" : String).data = some ("int", "foo", "", "a") ∧
    get_method_signature "int" "" [] = "(" ++ ")" ++ convert_java_type_to_jvm "int" [] :=
  ⟨by decide,
   c10_empty_params ("    int foo() -> a" : String).data "int" "foo" "a" [] (by decide)⟩

/-- Claim C1: end-to-end behaviour on the example input
`a.b.C -> x:` / `    int method(int,a.b.C) -> m` / `    int method(int) -> n`
/ `    int field -> f`: the resolution table is `{a/b/C ↦ x}` and the class
record for `a/b/C` stores under `method` the ordered overload list
`[{name m, signature (ILx;)I}, {name n, signature (I)I}]` and under `field`
the record `{name f}`. -/
theorem c1_end_to_end :
    parse_mappings "a.b.C -> x:\n    int method(int,a.b.C) -> m\n    int method(int) -> n\n    int field -> f"
      = ⟨[("a/b/C",
          ⟨"x",
           [("method", .overloaded [⟨"m", "(ILx;)I"⟩, ⟨"n", "(I)I"⟩])],
           [("field", ⟨"f"⟩)]⟩)]⟩
    ∧ class_map_of "a.b.C -> x:\n    int method(int,a.b.C) -> m\n    int method(int) -> n\n    int field -> f"
      = [("a/b/C", "x")] := by
  constructor <;> rfl

/-- Claim C9: `parse_mappings` is a pure function of the preprocessed line
sequence: invocations on texts with the same surviving lines (in the same
order) are structurally identical; in particular re-running it on the very
same input text yields an identical result. -/
theorem c9_deterministic (t1 t2 : String) (h : prepLines t1 = prepLines t2) :
    parse_mappings t1 = parse_mappings t2 := by
  unfold parse_mappings
  rw [h]

/-- Witness for C9: a trailing newline does not change the surviving lines,
hence not the result. -/
theorem c9_deterministic_witness :
    prepLines "a -> b:" = prepLines "a -> b:\n" ∧
    parse_mappings "a -> b:" = parse_mappings "a -> b:\n" :=
  ⟨by decide, c9_deterministic "a -> b:" "a -> b:\n" (by decide)⟩

/-- Claim C2: overload collation.  First conjunct (collation at flush): if
exactly one record was staged for a name, the flushed class record stores
that single record (`MethodEntry.single`, not a list); if more than one, it
stores the staged list itself (`MethodEntry.overloaded`), hence in first-seen
staging order.  Second conjunct (staging): a method line processed under a
current class appends, at the end of the per-name staged list, a record whose
descriptor is computed by `get_method_signature` from that line's own return
and parameter types. -/
theorem c2_overload_collation :
    (∀ (classes : List (String × ClassRecord)) (key : String)
       (ov : List (String × List MethodRecord)) (mname : String)
       (ms : List MethodRecord),
        (ov.map Prod.fst).Nodup →
        lookupD mname ov = some ms →
        (lookupD key classes).isSome = true →
        ((∀ m, ms = [m] →
            ((lookupD key (flushInto classes key ov)).bind fun r => lookupD mname r.methods)
              = some (MethodEntry.single m)) ∧
         (1 < ms.length →
            ((lookupD key (flushInto classes key ov)).bind fun r => lookupD mname r.methods)
              = some (MethodEntry.overloaded ms))))
    ∧ (∀ (cmap : List (String × String)) (st : Pass2State) (cs : List Char)
         (ret mname params obf key : String),
        st.current = some key → key ≠ "" →
        methodMatch cs = some (ret, mname, params, obf) →
        lookupD mname (pass2Step cmap st cs).overloads
          = some (((lookupD mname st.overloads).getD [])
              ++ [⟨obf, get_method_signature ret params cmap⟩])) := by
  constructor
  · intro classes key ov mname ms hnd hms hcl
    have hmain := flushInto_bind_lookup ov classes key mname ms hnd hms hcl
    constructor
    · intro m hm
      rw [hmain, hm]
      simp [collate]
    · intro h1
      rw [hmain]
      unfold collate
      rw [if_pos (by omega)]
  · intro cmap st cs ret mname params obf key hcur hkey hm
    have hcm := classMatch_eq_none_of_methodMatch hm
    simp only [pass2Step, hcm, hcur]
    rw [if_neg hkey, hm]
    exact lookupD_pushOverload_self mname _ st.overloads

/-- Witness for C2: a flush of two staged overloads of `foo` stores the
ordered list, and staging a method line appends the record computed from the
line's own types. -/
theorem c2_overload_collation_witness :
    ((lookupD "K" (flushInto [("K", ⟨"k0", [], []⟩)] "K"
        [("foo", [⟨"a", "(I)I"⟩, ⟨"b", "(J)I"⟩])])).bind
          fun r => lookupD "foo" r.methods)
      = some (MethodEntry.overloaded [⟨"a", "(I)I"⟩, ⟨"b", "(J)I"⟩]) ∧
    lookupD "foo" (pass2Step [] ⟨[("K", ⟨"k0", [], []⟩)], some "K", []⟩
        ("    int foo() -> a" : String).data).overloads
      = some (((lookupD "foo" ([] : List (String × List MethodRecord))).getD [])
          ++ [⟨"a", get_method_signature "int" "" []⟩]) :=
  ⟨(c2_overload_collation.1 [("K", ⟨"k0", [], []⟩)] "K"
      [("foo", [⟨"a", "(I)I"⟩, ⟨"b", "(J)I"⟩])] "foo"
      [⟨"a", "(I)I"⟩, ⟨"b", "(J)I"⟩] (by decide) (by decide) (by decide)).2 (by decide),
   c2_overload_collation.2 [] ⟨[("K", ⟨"k0", [], []⟩)], some "K", []⟩
      ("    int foo() -> a" : String).data "int" "foo" "" "a" "K" rfl (by decide) (by decide)⟩

/-- Claim C6 (counterexample): in the input `a -> x:` / `a -> y:` the line
`a -> x:` matches the class grammar, yet the resulting resolution table maps
key `a` to `y` — the later declaration's obfuscated name — not to this
line's `x`.  So the claim as stated (every matching line's key maps to that
line's own obfuscated name) is false when a class name is declared twice. -/
theorem c6_counterexample :
    (("a -> x:" : String).data ∈ prepLines "a -> x:\na -> y:") ∧
    classMatch ("a -> x:" : String).data = some ("a", "x") ∧
    dotsToSlashes "a" = "a" ∧
    lookupD "a" (class_map_of "a -> x:\na -> y:") = some "y" ∧
    ("y" : String) ≠ "x" :=
  ⟨by decide, by decide, by decide, by decide, by decide⟩

/-- Claim C6 (amended): for every line of the input matching the
class-declaration grammar, the resolution table contains an entry keyed by
the slash-converted original name, and its value is the obfuscated name of
the last class-declaration line for that key (hence the line's own
obfuscated name whenever the key is declared only once); member lines
contribute nothing to the table. -/
theorem c6_amended (input : String) (cs : List Char) (orig obf : String)
    (hmem : cs ∈ prepLines input) (hm : classMatch cs = some (orig, obf)) :
    ∃ v, lookupD (dotsToSlashes orig) (class_map_of input) = some v ∧
      lastOpt (classDecls (prepLines input) (dotsToSlashes orig)) = some v := by
  have h1 : lookupD (dotsToSlashes orig) (class_map_of input)
      = lastOpt (classDecls (prepLines input) (dotsToSlashes orig)) := by
    unfold class_map_of pass1
    rw [pass1_foldl_fst]
    exact orO_none_right _
  have hmem2 : obf ∈ classDecls (prepLines input) (dotsToSlashes orig) := by
    unfold classDecls
    refine List.mem_filterMap.mpr ⟨cs, hmem, ?_⟩
    simp [hm]
  have hne : classDecls (prepLines input) (dotsToSlashes orig) ≠ [] := by
    intro he
    rw [he] at hmem2
    exact List.not_mem_nil _ hmem2
  obtain ⟨v, hv⟩ := lastOpt_of_ne_nil hne
  exact ⟨v, by rw [h1, hv], hv⟩

/-- Witness for the amended C6: a single declaration `a.b.C -> x:`. -/
theorem c6_amended_witness :
    (("a.b.C -> x:" : String).data ∈ prepLines "a.b.C -> x:") ∧
    (∃ v, lookupD (dotsToSlashes "a.b.C") (class_map_of "a.b.C -> x:") = some v ∧
      lastOpt (classDecls (prepLines "a.b.C -> x:") (dotsToSlashes "a.b.C")) = some v) :=
  ⟨by decide, c6_amended "a.b.C -> x:" ("a.b.C -> x:" : String).data "a.b.C" "x"
      (by decide) (by decide)⟩

/-- Claim C7: duplicate class declarations.  For any key with at least one
class-declaration line, the resolution-table entry and the `name` attribute
of the output class record both equal the obfuscated name of the LAST
declaration line for that key: a later duplicate declaration overwrites the
earlier entry in both structures. -/
theorem c7_duplicate_last_wins (input k : String)
    (h : classDecls (prepLines input) k ≠ []) :
    lookupD k (class_map_of input) = lastOpt (classDecls (prepLines input) k) ∧
    (lookupD k (parse_mappings input).classes).map ClassRecord.name
      = lastOpt (classDecls (prepLines input) k) := by
  constructor
  · unfold class_map_of pass1
    rw [pass1_foldl_fst]
    exact orO_none_right _
  · show (lookupD k (flushPending ((prepLines input).foldl
        (pass2Step (pass1 (prepLines input)).1)
        ⟨(pass1 (prepLines input)).2, none, []⟩)).classes).map ClassRecord.name = _
    rw [name_flushPending, name_pass2_foldl]
    show (lookupD k (pass1 (prepLines input)).2).map ClassRecord.name = _
    unfold pass1
    rw [pass1_foldl_snd_name]
    exact orO_none_right _

/-- Witness for C7: `a` declared twice; the later `y` wins everywhere. -/
theorem c7_duplicate_last_wins_witness :
    classDecls (prepLines "a -> x:\na -> y:") "a" ≠ [] ∧
    (lookupD "a" (class_map_of "a -> x:\na -> y:")
        = lastOpt (classDecls (prepLines "a -> x:\na -> y:") "a") ∧
     (lookupD "a" (parse_mappings "a -> x:\na -> y:").classes).map ClassRecord.name
        = lastOpt (classDecls (prepLines "a -> x:\na -> y:") "a")) :=
  ⟨by decide, c7_duplicate_last_wins "a -> x:\na -> y:" "a" (by decide)⟩

theorem parseFromLines_congr2 {l1 l2 : List (List Char)}
    (h1 : pass1 l1 = pass1 l2)
    (h2 : ∀ (cmap : List (String × String)) (st : Pass2State), st.current = none →
        l1.foldl (pass2Step cmap) st = l2.foldl (pass2Step cmap) st) :
    parseFromLines l1 = parseFromLines l2 := by
  simp only [parseFromLines]
  rw [h1, h2 _ _ rfl]

theorem pass2_foldl_no_class (cmap : List (String × String)) :
    ∀ (pre : List (List Char)) (st : Pass2State),
      (∀ l ∈ pre, classMatch l = none) → st.current = none →
      pre.foldl (pass2Step cmap) st = st := by
  intro pre
  induction pre with
  | nil => intro st _ _; rfl
  | cons l rest ih =>
    intro st hpre hc
    rw [List.foldl_cons, pass2Step_noclass (hpre l (by simp)) cmap hc]
    exact ih st (fun x hx => hpre x (by simp [hx])) hc

/-- Claim C8: silent exclusion.  `parse_mappings` is a total function; no
input text is rejected.  First conjunct: a line matching none of the class,
method, or field grammars can be removed from any position without changing
the output.  Second conjunct: any non-class line — in particular a method or
field line — occurring before the first class-declaration line is likewise
without effect. -/
theorem c8_silent_skip :
    (∀ (pre post : List (List Char)) (cs : List Char),
        classMatch cs = none → methodMatch cs = none → fieldMatch cs = none →
        parseFromLines (pre ++ cs :: post) = parseFromLines (pre ++ post))
    ∧ (∀ (pre post : List (List Char)) (cs : List Char),
        (∀ l ∈ pre, classMatch l = none) → classMatch cs = none →
        parseFromLines (pre ++ cs :: post) = parseFromLines (pre ++ post)) := by
  constructor
  · intro pre post cs h1 h2 h3
    apply parseFromLines_congr2
    · unfold pass1
      rw [List.foldl_append, List.foldl_append, List.foldl_cons, pass1Step_skip h1]
    · intro cmap st _
      rw [List.foldl_append, List.foldl_append, List.foldl_cons, pass2Step_skip h1 h2 h3]
  · intro pre post cs hpre h1
    apply parseFromLines_congr2
    · unfold pass1
      rw [List.foldl_append, List.foldl_append, List.foldl_cons, pass1Step_skip h1]
    · intro cmap st hc
      rw [List.foldl_append, List.foldl_append]
      rw [pass2_foldl_no_class cmap pre st hpre hc]
      rw [List.foldl_cons, pass2Step_noclass h1 cmap hc]

/-- Witness for C8: dropping the unmatched line `!!garbage!!`, and dropping
the member line `    int x -> y` that precedes every class line. -/
theorem c8_silent_skip_witness :
    (classMatch ("!!garbage!!" : String).data = none ∧
     methodMatch ("!!garbage!!" : String).data = none ∧
     fieldMatch ("!!garbage!!" : String).data = none ∧
     parseFromLines ([("a -> b:" : String).data] ++ ("!!garbage!!" : String).data :: [])
        = parseFromLines ([("a -> b:" : String).data] ++ [])) ∧
    (classMatch ("    int x -> y" : String).data = none ∧
     parseFromLines ([] ++ ("    int x -> y" : String).data :: [("a -> b:" : String).data])
        = parseFromLines ([] ++ [("a -> b:" : String).data])) :=
  ⟨⟨by decide, by decide, by decide,
    c8_silent_skip.1 [("a -> b:" : String).data] [] ("!!garbage!!" : String).data
      (by decide) (by decide) (by decide)⟩,
   ⟨by decide,
    c8_silent_skip.2 [] [("a -> b:" : String).data] ("    int x -> y" : String).data
      (by simp) (by decide)⟩⟩

end Conversion
